import Mathlib

/-!
Verification of the facet-level construction module of milli
(`src/milli/src/update/facets.rs`).

Modelling conventions:
* `RoaringBitmap` is modelled as `Finset ℕ` (an opaque set of document ids
  supporting union), matching the spec's treatment of bitmaps as opaque
  integer sets.
* The level-0 contents of one field are modelled as the list of
  `(bound, bitmap)` pairs produced by the bounded range iteration
  (`db.range(..).take(level_0_size)`), in ascending bound order; the
  `bound_from_db_key` / `bitmap_from_db_value` extractions are pre-applied.
* The grenad `Writer`/`Reader` staging streams are modelled as the list of
  key/value pairs inserted into them, in insertion order.
* The LMDB store is modelled as a list of key/value pairs; codecs are
  treated as opaque order-preserving encodings, so keys are kept in their
  logical tuple shape `(field_id, level, left_bound, right_bound)`.
-/

namespace FacetLevels

/-- Union of a list of bitmaps: the `combined_bitmap |= bitmap` fold of
`recursive_compute_levels` starting from `RoaringBitmap::default()`. -/
def unionList (l : List (Finset ℕ)) : Finset ℕ := l.foldl (· ∪ ·) ∅

/-- Fuel-indexed worker for `chunkList`; the fuel (initially the list's
length) only serves structural termination and never runs out, since every
step consumes at least one element. -/
def chunkList.go {α : Type} (g : ℕ) : ℕ → List α → List (List α)
  | _, [] => []
  | 0, _ :: _ => []
  | fuel + 1, x :: xs => (x :: xs.take (g - 1)) :: chunkList.go g fuel (xs.drop (g - 1))

/-- Consecutive chunks of `g` elements of a list, the last chunk possibly
shorter.  This is the `bitmaps.len() == level_group_size.get()` batch-and-flush
pattern of `recursive_compute_levels` (the final non-empty remainder is also
flushed).  `g` comes from a `NonZeroUsize`, hence the `g - 1` formulation that
is faithful for every `g ≥ 1`. -/
def chunkList {α : Type} (g : ℕ) (l : List α) : List (List α) :=
  chunkList.go g l.length l

/-- The groups reported by the base case (level 0) of
`recursive_compute_levels`: batches of `level_group_size` bitmaps together
with the bounds of the first and last entry of the batch.  `b₀` is
`bound_from_db_key(0, &level_0_start)`, the initial value of
`start_bound`/`end_bound` (only relevant for empty batches, which are never
reported). -/
def level0Groups {β : Type} (g : ℕ) (b₀ : β) (entries : List (β × Finset ℕ)) :
    List (List (Finset ℕ) × β × β) :=
  (chunkList g entries).map fun c =>
    (c.map Prod.snd, (c.headD (b₀, ∅)).1, (c.getLastD (b₀, ∅)).1)

/-- The combination step of the callback passed to the recursive call: each
reported group of the lower level becomes one `(start, end, combined_bitmap)`
item of the current level. -/
def groupItems {β : Type} (groups : List (List (Finset ℕ) × β × β)) :
    List (β × β × Finset ℕ) :=
  groups.map fun grp => (grp.2.1, grp.2.2, unionList grp.1)

/-- The groups reported by a level `> 0` call of `recursive_compute_levels`:
batches of `level_group_size` combined items, with
`start_bound = range_for_bitmaps.first().0` and
`end_bound = range_for_bitmaps.last().1`. -/
def itemGroups {β : Type} (g : ℕ) (b₀ : β) (items : List (β × β × Finset ℕ)) :
    List (List (Finset ℕ) × β × β) :=
  (chunkList g items).map fun c =>
    (c.map (fun it => it.2.2), (c.headD (b₀, b₀, ∅)).1, (c.getLastD (b₀, b₀, ∅)).2.1)

/-- Groups reported by the call of `recursive_compute_levels` at a given
level (level 0 is the base case). -/
def levelGroups {β : Type} (g : ℕ) (b₀ : β) (entries : List (β × Finset ℕ)) :
    ℕ → List (List (Finset ℕ) × β × β)
  | 0 => level0Groups g b₀ entries
  | L + 1 => itemGroups g b₀ (groupItems (levelGroups g b₀ entries L))

/-- The `(start_bound, end_bound, combined_bitmap)` items accumulated at a
level `L ≥ 1` call; these are exactly the entries drained into that level's
writer via `write_entry`. -/
def levelItems {β : Type} (g : ℕ) (b₀ : β) (entries : List (β × Finset ℕ))
    (L : ℕ) : List (β × β × Finset ℕ) :=
  groupItems (levelGroups g b₀ entries (L - 1))

/-- The `number_document_ids |= bitmap` double loop of the outermost
`computed_group_bitmap` callback, over the groups reported by the top-level
call. -/
def aggregateOf {β : Type} (groups : List (List (Finset ℕ) × β × β)) : Finset ℕ :=
  groups.foldl (fun acc grp => grp.1.foldl (· ∪ ·) acc) ∅

/-- The `group_size_iter` vector of `compute_facet_number_levels` /
`compute_facet_strings_levels`: pairs `(l, level_group_size^l)` for
`l = 1, 2, …` (a `u8`, hence capped at `255`), taken while
`first_level_size / group_size ≥ min_level_size`. -/
def group_size_iter (level_0_size g min_level_size : ℕ) : List (ℕ × ℕ) :=
  ((List.range' 1 255).map (fun l => (l, g ^ l))).takeWhile
    (fun p => decide (min_level_size ≤ level_0_size / p.2))

/-- The top level picked by the planner: `group_size_iter.last()`, or `0`
(build nothing) when the vector is empty. -/
def top_level (level_0_size g min_level_size : ℕ) : ℕ :=
  match (group_size_iter level_0_size g min_level_size).getLast? with
  | some p => p.1
  | none => 0

/-- The generic part shared by `compute_facet_number_levels` and
`compute_facet_strings_levels`: decide the top level from `group_size_iter`;
if a top level exists run `recursive_compute_levels` (one writer per level
`1..=top_level`, in ascending level order, each containing the drained
batches of that level's items), aggregating the reported top-level groups;
otherwise fall back to directly unioning the bitmaps of the level-0 range. -/
def computeFacetLevelsCore {β : Type} (g minSize : ℕ) (b₀ : β)
    (entries : List (β × Finset ℕ)) :
    List (ℕ × List (β × β × Finset ℕ)) × Finset ℕ :=
  match (group_size_iter entries.length g minSize).getLast? with
  | some p =>
      ((List.range' 1 p.1).map
          (fun L => (L, (chunkList g (levelItems g b₀ entries L)).flatten)),
        aggregateOf (levelGroups g b₀ entries p.1))
  | none => ([], entries.foldl (fun acc e => acc ∪ e.2) ∅)

/-- `write_number_entry`: key `(field_id, level, left, right)` (the
`FacetLevelValueF64Codec` logical shape), value the bitmap.  The `f64` bound
domain is represented by an order proxy type (the claims never depend on
float arithmetic, only on the bound ordering). -/
def write_number_entry (field_id level : ℕ) (left right : Int) (ids : Finset ℕ) :
    (ℕ × ℕ × Int × Int) × Finset ℕ :=
  ((field_id, level, left, right), ids)

/-- `write_string_entry`: key `(field_id, level, left_id, right_id)` (the
`FacetLevelValueU32Codec` logical shape), value the bitmap, together with the
literal bound strings at level 1 only (the `match level.get()` in the
source). -/
def write_string_entry (field_id level : ℕ) (left right : ℕ × String)
    (docids : Finset ℕ) :
    (ℕ × ℕ × ℕ × ℕ) × Option (String × String) × Finset ℕ :=
  ((field_id, level, left.1, right.1),
    match level with
    | 1 => (some (left.2, right.2), docids)
    | _ => (none, docids))

/-- `compute_facet_number_levels` for one field, given the field's level-0
range contents (`first_level_size` entries).  The bound passed to
`recursive_compute_levels` is the left bound of the key
(`|_i, (_field_id, _level, left, _right)| *left`), and the initial bound is
the `f64::MIN` of `level_0_start`. -/
def compute_facet_number_levels (g minSize field_id : ℕ) (f64min : Int)
    (entries : List (Int × Finset ℕ)) :
    List (List ((ℕ × ℕ × Int × Int) × Finset ℕ)) × Finset ℕ :=
  let r := computeFacetLevelsCore g minSize f64min entries
  (r.1.map (fun p => p.2.map (fun it => write_number_entry field_id p.1 it.1 it.2.1 it.2.2)),
    r.2)

/-- The bound extraction of `compute_facet_strings_levels`:
`|i, (_field_id, value)| (i as u32, *value)` applied along the enumerated
level-0 range. -/
def stringBoundedEntries (entries : List (String × Finset ℕ)) :
    List ((ℕ × String) × Finset ℕ) :=
  entries.enum.map (fun p => ((p.1, p.2.1), p.2.2))

/-- `compute_facet_strings_levels` for one field, given the field's level-0
range contents.  Bounds are `(ordinal, string)` pairs; the initial bound is
`(0, "")`, from `level_0_start = (field_id, "")`. -/
def compute_facet_strings_levels (g minSize field_id : ℕ)
    (entries : List (String × Finset ℕ)) :
    List (List ((ℕ × ℕ × ℕ × ℕ) × Option (String × String) × Finset ℕ)) × Finset ℕ :=
  let r := computeFacetLevelsCore g minSize (0, ("" : String)) (stringBoundedEntries entries)
  (r.1.map (fun p => p.2.map (fun it => write_string_entry field_id p.1 it.1 it.2.1 it.2.2)),
    r.2)

/-- The tunables of the `Facets` builder (the two `NonZeroUsize` fields). -/
structure Facets where
  level_group_size : ℕ
  min_level_size : ℕ

/-- `Facets::new`: `level_group_size = 4`, `min_level_size = 5`. -/
def Facets.new : Facets := ⟨4, 5⟩

/-- The `Facets::level_group_size` setter:
`NonZeroUsize::new(cmp::max(value.get(), 2)).unwrap()`. -/
def Facets.set_level_group_size (f : Facets) (value : ℕ) : Facets :=
  { f with level_group_size := max value 2 }

/-- The `Facets::min_level_size` setter: stores its argument unchanged. -/
def Facets.set_min_level_size (f : Facets) (value : ℕ) : Facets :=
  { f with min_level_size := value }

/-! ### Basic lemmas about `unionList` and `chunkList` -/

theorem unionList_nil : unionList [] = ∅ := rfl

theorem foldl_union_eq (l : List (Finset ℕ)) :
    ∀ a : Finset ℕ, l.foldl (· ∪ ·) a = a ∪ unionList l := by
  induction l with
  | nil => intro a; simp [unionList]
  | cons x xs ih =>
      intro a
      simp only [List.foldl_cons, unionList]
      rw [ih (a ∪ x), ih (∅ ∪ x), Finset.empty_union, Finset.union_assoc]

theorem unionList_cons (x : Finset ℕ) (l : List (Finset ℕ)) :
    unionList (x :: l) = x ∪ unionList l := by
  simp only [unionList, List.foldl_cons]
  rw [foldl_union_eq l (∅ ∪ x), Finset.empty_union]
  rfl

theorem unionList_append (l₁ l₂ : List (Finset ℕ)) :
    unionList (l₁ ++ l₂) = unionList l₁ ∪ unionList l₂ := by
  induction l₁ with
  | nil => simp [unionList_nil]
  | cons x xs ih => simp [unionList_cons, ih, Finset.union_assoc]

theorem unionList_flatten (L : List (List (Finset ℕ))) :
    unionList (L.map unionList) = unionList L.flatten := by
  induction L with
  | nil => rfl
  | cons c cs ih =>
      simp only [List.map_cons, List.flatten_cons, unionList_cons, unionList_append, ih]

theorem chunkList_go_congr {α : Type} (g : ℕ) :
    ∀ fuel₁ fuel₂ (l : List α), l.length ≤ fuel₁ → l.length ≤ fuel₂ →
      chunkList.go g fuel₁ l = chunkList.go g fuel₂ l := by
  intro fuel₁
  induction fuel₁ with
  | zero =>
      intro fuel₂ l h1 _
      match l with
      | [] => cases fuel₂ <;> rfl
      | x :: xs => simp at h1
  | succ fuel ih =>
      intro fuel₂ l h1 h2
      match l with
      | [] => cases fuel₂ <;> rfl
      | x :: xs =>
          match fuel₂ with
          | 0 => simp at h2
          | fuel₂' + 1 =>
              show (x :: xs.take (g - 1)) :: chunkList.go g fuel (xs.drop (g - 1)) =
                (x :: xs.take (g - 1)) :: chunkList.go g fuel₂' (xs.drop (g - 1))
              rw [ih fuel₂' (xs.drop (g - 1))
                (by simp only [List.length_cons] at h1; simp [List.length_drop]; omega)
                (by simp only [List.length_cons] at h2; simp [List.length_drop]; omega)]

theorem chunkList_go_fuel {α : Type} (g : ℕ) (fuel : ℕ) (l : List α)
    (h : l.length ≤ fuel) : chunkList.go g fuel l = chunkList g l :=
  chunkList_go_congr g fuel l.length l h (Nat.le_refl _)

theorem chunkList_nil {α : Type} (g : ℕ) : chunkList g ([] : List α) = [] := rfl

theorem chunkList_cons {α : Type} (g : ℕ) (x : α) (xs : List α) :
    chunkList g (x :: xs) = (x :: xs.take (g - 1)) :: chunkList g (xs.drop (g - 1)) := by
  show (x :: xs.take (g - 1)) :: chunkList.go g xs.length (xs.drop (g - 1)) = _
  rw [chunkList_go_fuel g xs.length (xs.drop (g - 1)) (by simp [List.length_drop])]

/-- For `g ≥ 1`, each step of `chunkList` takes exactly `g` elements and
recurses on the rest. -/
theorem chunkList_cons' {α : Type} {g : ℕ} (hg : 1 ≤ g) {l : List α} (h : l ≠ []) :
    chunkList g l = l.take g :: chunkList g (l.drop g) := by
  match l with
  | [] => exact absurd rfl h
  | x :: xs =>
      obtain ⟨k, rfl⟩ : ∃ k, g = k + 1 := ⟨g - 1, by omega⟩
      rw [chunkList_cons]
      simp [List.take_succ_cons, List.drop_succ_cons]

theorem chunkList_flatten {α : Type} (g : ℕ) (l : List α) :
    (chunkList g l).flatten = l := by
  match l with
  | [] => simp [chunkList_nil]
  | x :: xs =>
      rw [chunkList_cons]
      simp only [List.flatten_cons, List.cons_append]
      rw [chunkList_flatten g (xs.drop (g - 1))]
      simp [List.take_append_drop]
termination_by l.length
decreasing_by simp [List.length_drop]; omega

theorem mem_chunkList_ne_nil {α : Type} {g : ℕ} {l : List α} {c : List α}
    (hc : c ∈ chunkList g l) : c ≠ [] := by
  match l with
  | [] => rw [chunkList_nil] at hc; exact absurd hc (List.not_mem_nil c)
  | x :: xs =>
      rw [chunkList_cons] at hc
      rcases List.mem_cons.mp hc with h | h
      · subst h; exact List.cons_ne_nil _ _
      · exact mem_chunkList_ne_nil h
termination_by l.length
decreasing_by simp [List.length_drop]; omega

theorem mem_of_mem_chunkList {α : Type} {g : ℕ} {l c : List α} {x : α}
    (hc : c ∈ chunkList g l) (hx : x ∈ c) : x ∈ l := by
  have : x ∈ (chunkList g l).flatten := List.mem_flatten.mpr ⟨c, hc, hx⟩
  rwa [chunkList_flatten] at this

theorem chunkList_map {α β : Type} (g : ℕ) (f : α → β) (l : List α) :
    chunkList g (l.map f) = (chunkList g l).map (List.map f) := by
  match l with
  | [] => simp [chunkList_nil]
  | x :: xs =>
      rw [List.map_cons, chunkList_cons, chunkList_cons]
      rw [← List.map_take, ← List.map_drop]
      rw [chunkList_map g f (xs.drop (g - 1))]
      simp
termination_by l.length
decreasing_by simp [List.length_drop]; omega

theorem chunkList_eq_nil_iff {α : Type} {g : ℕ} {l : List α} :
    chunkList g l = [] ↔ l = [] := by
  match l with
  | [] => simp [chunkList_nil]
  | x :: xs => rw [chunkList_cons]; simp

theorem flatten_take_chunkList {α : Type} {m : ℕ} (hm : 1 ≤ m) (k : ℕ) (l : List α) :
    ((chunkList m l).take k).flatten = l.take (k * m) := by
  induction k generalizing l with
  | zero => simp
  | succ k ih =>
      match l with
      | [] => simp [chunkList_nil]
      | x :: xs =>
          rw [chunkList_cons' hm (List.cons_ne_nil x xs)]
          rw [List.take_succ_cons, List.flatten_cons, ih]
          rw [Nat.succ_mul, Nat.add_comm (k * m) m, List.take_add]

theorem drop_chunkList {α : Type} {m : ℕ} (hm : 1 ≤ m) (k : ℕ) (l : List α) :
    (chunkList m l).drop k = chunkList m (l.drop (k * m)) := by
  induction k generalizing l with
  | zero => simp
  | succ k ih =>
      match l with
      | [] => simp [chunkList_nil]
      | x :: xs =>
          rw [chunkList_cons' hm (List.cons_ne_nil x xs)]
          rw [List.drop_succ_cons, ih, List.drop_drop, Nat.succ_mul,
            Nat.add_comm (k * m) m]

/-- Chunking a chunking composes: flattening each `g`-batch of `m`-chunks is
the same as chunking directly by `g * m`.  This is the formal content of the
source comment "Groups sizes are always a power of the original
level_group_size and therefore a group always maps groups of the previous
level and never splits previous levels groups in half". -/
theorem chunkList_chunkList {α : Type} {g m : ℕ} (hg : 1 ≤ g) (hm : 1 ≤ m)
    (l : List α) :
    (chunkList g (chunkList m l)).map List.flatten = chunkList (g * m) l := by
  match l with
  | [] => simp [chunkList_nil]
  | x :: xs =>
      have hne : (x :: xs) ≠ [] := List.cons_ne_nil x xs
      have hcne : chunkList m (x :: xs) ≠ [] := by
        rw [Ne, chunkList_eq_nil_iff]; exact hne
      have hgm : 1 ≤ g * m := by
        calc 1 = 1 * 1 := (Nat.one_mul 1).symm
        _ ≤ g * m := Nat.mul_le_mul hg hm
      rw [chunkList_cons' hg hcne, List.map_cons,
        flatten_take_chunkList hm g (x :: xs),
        drop_chunkList hm g (x :: xs),
        chunkList_chunkList hg hm (List.drop (g * m) (x :: xs)),
        chunkList_cons' hgm hne]
termination_by l.length
decreasing_by
  have _h1 : 1 * 1 ≤ g * m := Nat.mul_le_mul hg hm
  simp [List.length_drop]
  omega

/-- Number of chunks: the ceiling of `length / k`. -/
theorem chunkList_length {α : Type} {k : ℕ} (hk : 1 ≤ k) (l : List α) :
    (chunkList k l).length = (l.length + k - 1) / k := by
  match l with
  | [] =>
      rw [chunkList_nil]
      simp only [List.length_nil, Nat.zero_add]
      exact (Nat.div_eq_of_lt (by omega)).symm
  | x :: xs =>
      rw [chunkList_cons' hk (List.cons_ne_nil x xs), List.length_cons,
        chunkList_length hk ((x :: xs).drop k), List.length_drop]
      rcases Nat.lt_or_ge (x :: xs).length (k + 1) with h | h
      · have h0 : (x :: xs).length - k = 0 := by omega
        have e1 : (x :: xs).length + k - 1 = ((x :: xs).length - 1) + k := by
          have : 1 ≤ (x :: xs).length := by simp
          omega
        rw [h0, e1, Nat.add_div_right _ (by omega),
          Nat.div_eq_of_lt (a := 0 + k - 1) (by omega),
          Nat.div_eq_of_lt (a := (x :: xs).length - 1) (by omega)]
      · have e1 : (x :: xs).length - k + k - 1 = ((x :: xs).length - k - 1) + k := by
          omega
        have e2 : (x :: xs).length + k - 1 = (((x :: xs).length - k - 1) + k) + k := by
          omega
        rw [e1, e2, Nat.add_div_right _ (by omega), Nat.add_div_right _ (by omega),
          Nat.add_div_right _ (by omega)]
termination_by l.length
decreasing_by simp [List.length_drop]; omega

/-- Every chunk except the last has length exactly `k`. -/
theorem chunkList_dropLast_length {α : Type} {k : ℕ} (hk : 1 ≤ k) (l : List α) :
    ∀ c ∈ (chunkList k l).dropLast, c.length = k := by
  match l with
  | [] => simp [chunkList_nil]
  | x :: xs =>
      intro c hc
      rw [chunkList_cons' hk (List.cons_ne_nil x xs)] at hc
      by_cases hrest : chunkList k ((x :: xs).drop k) = []
      · rw [hrest] at hc; simp at hc
      · rw [List.dropLast_cons_of_ne_nil hrest] at hc
        rcases List.mem_cons.mp hc with h | h
        · subst h
          rw [List.length_take]
          have hd : (x :: xs).drop k ≠ [] := by
            intro he
            exact hrest (by rw [he, chunkList_nil])
          have hlen : k < (x :: xs).length := by
            rcases Nat.lt_or_ge k (x :: xs).length with hlt | hge
            · exact hlt
            · exact absurd (List.drop_eq_nil_iff.mpr hge) hd
          exact Nat.min_eq_left (Nat.le_of_lt hlen)
        · exact chunkList_dropLast_length hk ((x :: xs).drop k) c h
termination_by l.length
decreasing_by simp [List.length_drop]; omega

/-- The last chunk has length `length mod k`, or `k` when that remainder is
zero. -/
theorem chunkList_getLast_length {α : Type} {k : ℕ} (hk : 1 ≤ k) (l : List α)
    (c : List α) (hc : (chunkList k l).getLast? = some c) :
    c.length = if l.length % k = 0 then k else l.length % k := by
  match l with
  | [] => rw [chunkList_nil] at hc; simp at hc
  | x :: xs =>
      rw [chunkList_cons' hk (List.cons_ne_nil x xs)] at hc
      by_cases hrest : chunkList k ((x :: xs).drop k) = []
      · rw [hrest] at hc
        have hcc : c = (x :: xs).take k := by
          have : some ((x :: xs).take k) = some c := hc
          exact (Option.some.injEq _ _ ▸ this).symm
        have hle : (x :: xs).length ≤ k := by
          rcases Nat.lt_or_ge k (x :: xs).length with hlt | hge
          · exact absurd (List.drop_eq_nil_iff.mp (chunkList_eq_nil_iff.mp hrest))
              (by omega)
          · exact hge
        subst hcc
        rw [List.length_take, Nat.min_eq_right hle]
        rcases Nat.eq_or_lt_of_le hle with heq | hlt
        · rw [heq, Nat.mod_self]; simp
        · rw [Nat.mod_eq_of_lt hlt]
          have : (x :: xs).length ≠ 0 := by simp
          simp [this]
      · obtain ⟨c₁, cs₁, hco⟩ := List.exists_cons_of_ne_nil hrest
        rw [hco, List.getLast?_cons_cons] at hc
        have hrec := chunkList_getLast_length hk ((x :: xs).drop k) c
          (by rw [hco]; exact hc)
        rw [List.length_drop] at hrec
        have hlen : k < (x :: xs).length := by
          rcases Nat.lt_or_ge k (x :: xs).length with hlt | hge
          · exact hlt
          · exact absurd (chunkList_eq_nil_iff.mpr (List.drop_eq_nil_iff.mpr hge)) hrest
        have hmod : ((x :: xs).length - k) % k = (x :: xs).length % k := by
          conv_rhs => rw [show (x :: xs).length = ((x :: xs).length - k) + k by omega]
          rw [Nat.add_mod_right]
        rwa [hmod] at hrec
termination_by l.length
decreasing_by simp [List.length_drop]; omega

/-! ### Head/last helpers for non-empty chunks -/

theorem getLastD_of_ne_nil {α : Type} {l : List α} (h : l ≠ []) (d d' : α) :
    l.getLastD d = l.getLastD d' := by
  obtain ⟨a, ha⟩ : ∃ a, l.getLast? = some a := by
    cases hg : l.getLast? with
    | none => exact absurd (List.getLast?_eq_none_iff.mp hg) h
    | some a => exact ⟨a, rfl⟩
  rw [List.getLastD_eq_getLast?, List.getLastD_eq_getLast?, ha]
  rfl

theorem headD_map_of_ne_nil {α β : Type} (f : α → β) {c : List α} (hc : c ≠ [])
    (d : β) (d' : α) : (c.map f).headD d = f (c.headD d') := by
  obtain ⟨b, L, rfl⟩ := List.exists_cons_of_ne_nil hc
  simp

theorem getLastD_map_of_ne_nil {α β : Type} (f : α → β) {c : List α} (hc : c ≠ [])
    (d : β) (d' : α) : (c.map f).getLastD d = f (c.getLastD d') := by
  obtain ⟨a, ha⟩ : ∃ a, c.getLast? = some a := by
    cases hg : c.getLast? with
    | none => exact absurd (List.getLast?_eq_none_iff.mp hg) hc
    | some a => exact ⟨a, rfl⟩
  rw [List.getLastD_eq_getLast?, List.getLastD_eq_getLast?, List.getLast?_map, ha]
  simp

theorem getLast?_append_of_ne_nil {α : Type} (l : List α) {l' : List α}
    (h : l' ≠ []) : (l ++ l').getLast? = l'.getLast? := by
  rw [List.getLast?_append]
  obtain ⟨a, ha⟩ : ∃ a, l'.getLast? = some a := by
    cases hg : l'.getLast? with
    | none => exact absurd (List.getLast?_eq_none_iff.mp hg) h
    | some a => exact ⟨a, rfl⟩
  rw [ha]
  simp

theorem headD_flatten_of_ne_nil {α : Type} {cs : List (List α)}
    (hne : ∀ c ∈ cs, c ≠ []) (h : cs ≠ []) (d : α) :
    cs.flatten.headD d = (cs.headD []).headD d := by
  match cs with
  | [] => exact absurd rfl h
  | c :: cs' =>
      obtain ⟨b, L, rfl⟩ := List.exists_cons_of_ne_nil (hne c (by simp))
      simp

theorem flatten_ne_nil_of_ne_nil {α : Type} {cs : List (List α)}
    (hne : ∀ c ∈ cs, c ≠ []) (h : cs ≠ []) : cs.flatten ≠ [] := by
  match cs with
  | [] => exact absurd rfl h
  | c :: cs' =>
      obtain ⟨b, L, rfl⟩ := List.exists_cons_of_ne_nil (hne c (by simp))
      simp

theorem getLastD_flatten_of_ne_nil {α : Type} {cs : List (List α)}
    (hne : ∀ c ∈ cs, c ≠ []) (h : cs ≠ []) (d : α) :
    cs.flatten.getLastD d = (cs.getLastD []).getLastD d := by
  match cs with
  | [] => exact absurd rfl h
  | [c] => simp
  | c :: c' :: cs' =>
      have hne' : ∀ x ∈ c' :: cs', x ≠ [] := fun x hx => hne x (by simp [hx])
      have hflat : (c' :: cs').flatten ≠ [] :=
        flatten_ne_nil_of_ne_nil hne' (List.cons_ne_nil c' cs')
      have hr : (c :: c' :: cs').getLastD [] = cs'.getLastD c' := by
        rw [List.getLastD_cons, List.getLastD_cons]
      rw [List.flatten_cons, List.getLastD_eq_getLast?,
        getLast?_append_of_ne_nil c hflat, ← List.getLastD_eq_getLast?,
        getLastD_flatten_of_ne_nil hne' (List.cons_ne_nil c' cs') d,
        List.getLastD_cons, hr]

/-! ### The items of level `L` are the direct `g^L`-chunking of level 0 -/

/-- Direct characterisation of the level-`L` items: chunk the level-0 entries
into runs of `level_group_size ^ L`; each run becomes one entry whose bounds
are the run's first and last level-0 bounds and whose bitmap is the union of
the run's bitmaps. -/
def itemsSpec {β : Type} (g L : ℕ) (b₀ : β) (entries : List (β × Finset ℕ)) :
    List (β × β × Finset ℕ) :=
  (chunkList (g ^ L) entries).map fun c =>
    ((c.headD (b₀, ∅)).1, (c.getLastD (b₀, ∅)).1, unionList (c.map Prod.snd))

theorem groupItems_itemGroups_itemsSpec {β : Type} {g : ℕ} (hg : 1 ≤ g) (L : ℕ)
    (b₀ : β) (entries : List (β × Finset ℕ)) :
    groupItems (itemGroups g b₀ (itemsSpec g L b₀ entries)) =
      itemsSpec g (L + 1) b₀ entries := by
  have hm : 1 ≤ g ^ L := Nat.one_le_pow L g (by omega)
  unfold groupItems itemGroups itemsSpec
  rw [chunkList_map, List.map_map, List.map_map]
  have hpow : g ^ (L + 1) = g * g ^ L := by rw [pow_succ, Nat.mul_comm]
  rw [hpow, ← chunkList_chunkList hg hm entries, List.map_map]
  apply List.map_congr_left
  intro C hC
  have hCne : C ≠ [] := mem_chunkList_ne_nil hC
  have hsub : ∀ c ∈ C, c ≠ [] := fun c hc =>
    mem_chunkList_ne_nil (mem_of_mem_chunkList hC hc)
  simp only [Function.comp, Prod.mk.injEq]
  refine ⟨?_, ?_, ?_⟩
  · rw [headD_map_of_ne_nil _ hCne _ [], headD_flatten_of_ne_nil hsub hCne]
  · rw [getLastD_map_of_ne_nil _ hCne _ [], getLastD_flatten_of_ne_nil hsub hCne]
  · rw [List.map_map, List.map_flatten, ← unionList_flatten, List.map_map]
    exact congrArg unionList (List.map_congr_left fun c _ => rfl)

theorem levelItems_one {β : Type} (g : ℕ) (b₀ : β)
    (entries : List (β × Finset ℕ)) :
    levelItems g b₀ entries 1 = itemsSpec g 1 b₀ entries := by
  unfold levelItems levelGroups level0Groups groupItems itemsSpec
  rw [pow_one, List.map_map]
  rfl

/-- The items accumulated at level `L ≥ 1` by `recursive_compute_levels` are
exactly the direct chunking of the level-0 entries into runs of
`level_group_size ^ L`. -/
theorem levelItems_eq_itemsSpec {β : Type} {g : ℕ} (hg : 1 ≤ g) (b₀ : β)
    (entries : List (β × Finset ℕ)) :
    ∀ L, 1 ≤ L → levelItems g b₀ entries L = itemsSpec g L b₀ entries := by
  intro L hL
  obtain ⟨K, rfl⟩ : ∃ K, L = K + 1 := ⟨L - 1, by omega⟩
  clear hL
  induction K with
  | zero => exact levelItems_one g b₀ entries
  | succ K ih =>
      have hstep : levelItems g b₀ entries (K + 2) =
          groupItems (itemGroups g b₀ (levelItems g b₀ entries (K + 1))) := rfl
      rw [hstep, ih, groupItems_itemGroups_itemsSpec hg (K + 1) b₀ entries]

/-! ### Coverage: every level's bitmaps union to the level-0 union -/

theorem unionList_itemsSpec {β : Type} (g L : ℕ) (b₀ : β)
    (entries : List (β × Finset ℕ)) :
    unionList ((itemsSpec g L b₀ entries).map (fun it => it.2.2)) =
      unionList (entries.map Prod.snd) := by
  unfold itemsSpec
  rw [List.map_map]
  have h1 : List.map ((fun it : β × β × Finset ℕ => it.2.2) ∘ fun c =>
      ((c.headD (b₀, ∅)).1, (c.getLastD (b₀, ∅)).1, unionList (c.map Prod.snd)))
      (chunkList (g ^ L) entries) =
      List.map (unionList ∘ List.map Prod.snd) (chunkList (g ^ L) entries) :=
    List.map_congr_left fun c _ => rfl
  rw [h1, ← List.map_map, unionList_flatten, ← List.map_flatten, chunkList_flatten]

theorem unionList_levelItems {β : Type} {g : ℕ} (hg : 1 ≤ g) (b₀ : β)
    (entries : List (β × Finset ℕ)) {L : ℕ} (hL : 1 ≤ L) :
    unionList ((levelItems g b₀ entries L).map (fun it => it.2.2)) =
      unionList (entries.map Prod.snd) := by
  rw [levelItems_eq_itemsSpec hg b₀ entries L hL, unionList_itemsSpec]

theorem foldl_aggregate_eq {β : Type} (groups : List (List (Finset ℕ) × β × β)) :
    ∀ a : Finset ℕ,
      groups.foldl (fun acc grp => grp.1.foldl (· ∪ ·) acc) a =
        a ∪ unionList ((groups.map (fun grp => grp.1)).flatten) := by
  induction groups with
  | nil => intro a; simp [unionList_nil]
  | cons grp gs ih =>
      intro a
      simp only [List.foldl_cons, List.map_cons, List.flatten_cons]
      rw [ih, foldl_union_eq, unionList_append, Finset.union_assoc]

theorem levelGroups_succ_def {β : Type} (g : ℕ) (b₀ : β)
    (entries : List (β × Finset ℕ)) (K : ℕ) :
    levelGroups g b₀ entries (K + 1) =
      itemGroups g b₀ (levelItems g b₀ entries (K + 1)) := rfl

/-- The outermost callback's aggregation over the groups reported by the
level-`L` call recovers the union of all level-0 bitmaps. -/
theorem aggregateOf_levelGroups {β : Type} {g : ℕ} (hg : 1 ≤ g) (b₀ : β)
    (entries : List (β × Finset ℕ)) (L : ℕ) :
    aggregateOf (levelGroups g b₀ entries L) = unionList (entries.map Prod.snd) := by
  unfold aggregateOf
  rw [foldl_aggregate_eq, Finset.empty_union]
  cases L with
  | zero =>
      show unionList (((level0Groups g b₀ entries).map (fun grp => grp.1)).flatten) = _
      unfold level0Groups
      rw [List.map_map]
      have h1 : List.map ((fun grp : List (Finset ℕ) × β × β => grp.1) ∘ fun c =>
          (c.map Prod.snd, (c.headD (b₀, ∅)).1, (c.getLastD (b₀, ∅)).1))
          (chunkList g entries) =
          List.map (List.map Prod.snd) (chunkList g entries) :=
        List.map_congr_left fun c _ => rfl
      rw [h1, ← List.map_flatten, chunkList_flatten]
  | succ K =>
      rw [levelGroups_succ_def]
      unfold itemGroups
      rw [List.map_map]
      have h1 : List.map ((fun grp : List (Finset ℕ) × β × β => grp.1) ∘ fun c =>
          (c.map (fun it => it.2.2), (c.headD (b₀, b₀, ∅)).1,
            (c.getLastD (b₀, b₀, ∅)).2.1))
          (chunkList g (levelItems g b₀ entries (K + 1))) =
          List.map (List.map (fun it : β × β × Finset ℕ => it.2.2))
            (chunkList g (levelItems g b₀ entries (K + 1))) :=
        List.map_congr_left fun c _ => rfl
      rw [h1, ← List.map_flatten, chunkList_flatten,
        unionList_levelItems hg b₀ entries (Nat.le_add_left 1 K)]

/-- The direct fallback union (`documents_ids |= docids` over the level-0
range) equals the union of the level-0 bitmaps. -/
theorem foldl_entries_union {β : Type} (entries : List (β × Finset ℕ)) :
    entries.foldl (fun acc e => acc ∪ e.2) ∅ = unionList (entries.map Prod.snd) := by
  rw [unionList, List.foldl_map]

/-! ### The planner (`group_size_iter` / `top_level`) -/

theorem takeWhile_range'_spec (q : ℕ → Bool) (n : ℕ) :
    ∀ s : ℕ, ∃ t, t ≤ n ∧ (List.range' s n).takeWhile q = List.range' s t ∧
      (∀ i, s ≤ i → i < s + t → q i = true) ∧ (t < n → q (s + t) = false) := by
  induction n with
  | zero =>
      intro s
      exact ⟨0, Nat.le_refl 0, by simp,
        fun i h1 h2 => absurd h2 (by omega), fun h => absurd h (by omega)⟩
  | succ n ih =>
      intro s
      rw [List.range'_succ]
      cases hq : q s with
      | false =>
          refine ⟨0, by omega, ?_, ?_, ?_⟩
          · rw [List.takeWhile_cons_of_neg (by rw [hq]; simp)]
            simp
          · intro i h1 h2; omega
          · intro _; simpa using hq
      | true =>
          obtain ⟨t, ht, heq, hall, hstop⟩ := ih (s + 1)
          refine ⟨t + 1, by omega, ?_, ?_, ?_⟩
          · rw [List.takeWhile_cons_of_pos (by rw [hq])]
            rw [heq, List.range'_succ]
          · intro i h1 h2
            rcases Nat.eq_or_lt_of_le h1 with h | h
            · rwa [← h]
            · exact hall i h (by omega)
          · intro h
            have := hstop (by omega)
            rwa [show s + 1 + t = s + (t + 1) by omega] at this

theorem group_size_iter_spec (n g m : ℕ) :
    ∃ t, t ≤ 255 ∧
      group_size_iter n g m = (List.range' 1 t).map (fun l => (l, g ^ l)) ∧
      (∀ i, 1 ≤ i → i < 1 + t → m ≤ n / g ^ i) ∧
      (t < 255 → ¬ m ≤ n / g ^ (1 + t)) := by
  obtain ⟨t, ht, heq, hall, hstop⟩ :=
    takeWhile_range'_spec (fun l => decide (m ≤ n / g ^ l)) 255 1
  refine ⟨t, ht, ?_, ?_, ?_⟩
  · unfold group_size_iter
    rw [List.takeWhile_map]
    rw [show ((fun p : ℕ × ℕ => decide (m ≤ n / p.2)) ∘ fun l => (l, g ^ l)) =
        (fun l => decide (m ≤ n / g ^ l)) from rfl, heq]
  · intro i h1 h2
    exact of_decide_eq_true (hall i h1 h2)
  · intro h hc
    have := hstop h
    rw [decide_eq_false_iff_not] at this
    exact this hc

theorem getLast?_range'_one (t : ℕ) :
    (List.range' 1 (t + 1)).getLast? = some (t + 1) := by
  rw [List.range'_concat, List.getLast?_concat]
  congr 1
  omega

/-- If the first candidate level already fails the planner's inequality,
`group_size_iter` is empty and the compute core falls back to the direct
union of level 0. -/
theorem core_first_level_fails {β : Type} (g minSize : ℕ) (b₀ : β)
    (entries : List (β × Finset ℕ))
    (hq : ¬ minSize ≤ entries.length / g ^ 1) :
    computeFacetLevelsCore g minSize b₀ entries =
      ([], unionList (entries.map Prod.snd)) := by
  have hempty : group_size_iter entries.length g minSize = [] := by
    unfold group_size_iter
    rw [show (255 : ℕ) = 254 + 1 from rfl, List.range'_succ, List.map_cons,
      List.takeWhile_cons_of_neg]
    rw [decide_eq_true_eq]
    exact hq
  unfold computeFacetLevelsCore
  rw [hempty]
  show ([], entries.foldl (fun acc e => acc ∪ e.2) ∅) =
    ([], unionList (entries.map Prod.snd))
  rw [foldl_entries_union]

theorem stringBoundedEntries_map_snd (sentries : List (String × Finset ℕ)) :
    (stringBoundedEntries sentries).map Prod.snd = sentries.map Prod.snd := by
  unfold stringBoundedEntries
  rw [List.map_map]
  have h1 : (Prod.snd ∘ fun p : ℕ × String × Finset ℕ => ((p.1, p.2.1), p.2.2)) =
      (Prod.snd ∘ Prod.snd) := rfl
  rw [h1, show (Prod.snd ∘ Prod.snd : ℕ × String × Finset ℕ → Finset ℕ) =
      (Prod.snd ∘ (Prod.snd : ℕ × String × Finset ℕ → String × Finset ℕ)) from rfl]
  rw [← List.map_map, List.enum_map_snd]

theorem stringBoundedEntries_length (sentries : List (String × Finset ℕ)) :
    (stringBoundedEntries sentries).length = sentries.length := by
  unfold stringBoundedEntries
  rw [List.length_map, List.enum_length]

/-- C1: for every field, the top level chosen by the planner is the largest
`L ≥ 1` with `level_0_size / level_group_size ^ L ≥ min_level_size`
(equivalently: a level `L ≥ 1` satisfies the inequality iff `L ≤ top_level`);
when even `L = 1` fails it, `top_level` is `0` and no level satisfies it.
The size bound keeps the `u8` level counter of the source away from
overflow. -/
theorem top_level_is_greatest (n g m : ℕ) (hg : 2 ≤ g) (hm : 1 ≤ m)
    (hn : n < 2 ^ 255) :
    ∀ L, 1 ≤ L → (m ≤ n / g ^ L ↔ L ≤ top_level n g m) := by
  obtain ⟨t, ht, heq, hall, hstop⟩ := group_size_iter_spec n g m
  have hP : ∀ i j, 1 ≤ i → i ≤ j → m ≤ n / g ^ j → m ≤ n / g ^ i := by
    intro i j _ hij hj
    exact hj.trans (Nat.div_le_div_left (Nat.pow_le_pow_right (by omega) hij)
      (pow_pos (by omega) i))
  have h255 : ¬ m ≤ n / g ^ 255 := by
    have h2 : (2 : ℕ) ^ 255 ≤ g ^ 255 := Nat.pow_le_pow_left hg 255
    have h0 : n / g ^ 255 = 0 := Nat.div_eq_of_lt (lt_of_lt_of_le hn h2)
    intro hc
    rw [h0] at hc
    omega
  have ht255 : t < 255 := by
    rcases Nat.lt_or_ge t 255 with h | h
    · exact h
    · have htt : t = 255 := by omega
      exact absurd (hall 255 (by omega) (by omega)) h255
  have htop : top_level n g m = t := by
    unfold top_level
    rw [heq, List.getLast?_map]
    cases t with
    | zero => rfl
    | succ t' =>
        rw [getLast?_range'_one t']
        rfl
  intro L hL
  constructor
  · intro h
    by_contra hc
    push_neg at hc
    rw [htop] at hc
    exact hstop ht255 (hP (1 + t) L (by omega) (by omega) h)
  · intro h
    rw [htop] at h
    exact hall L hL (by omega)

theorem top_level_is_greatest_witness :
    5 ≤ 1000 / 4 ^ 3 ↔ 3 ≤ top_level 1000 4 5 :=
  top_level_is_greatest 1000 4 5 (by decide) (by decide) (by norm_num) 3 (by decide)

/-- C2: for every field and every level `L ≥ 1` (in particular every built
one), the union of the document bitmaps of the level-`L` entries equals the
union of the bitmaps of the level-0 entries, and the aggregate bitmap
returned to the caller equals that same union. -/
theorem levels_cover_level0 {β : Type} (g minSize : ℕ) (b₀ : β)
    (entries : List (β × Finset ℕ)) (hg : 1 ≤ g) :
    (∀ L, 1 ≤ L →
      unionList ((levelItems g b₀ entries L).map (fun it => it.2.2)) =
        unionList (entries.map Prod.snd)) ∧
    (∀ p ∈ (computeFacetLevelsCore g minSize b₀ entries).1,
      unionList (p.2.map (fun it => it.2.2)) = unionList (entries.map Prod.snd)) ∧
    (computeFacetLevelsCore g minSize b₀ entries).2 =
      unionList (entries.map Prod.snd) := by
  refine ⟨fun L hL => unionList_levelItems hg b₀ entries hL, ?_, ?_⟩
  · intro p hp
    unfold computeFacetLevelsCore at hp
    split at hp
    · obtain ⟨L, hLmem, rfl⟩ := List.mem_map.mp hp
      have hL1 : 1 ≤ L := (List.mem_range'_1.mp hLmem).1
      show unionList (((chunkList g (levelItems g b₀ entries L)).flatten).map
        (fun it => it.2.2)) = _
      rw [chunkList_flatten]
      exact unionList_levelItems hg b₀ entries hL1
    · simp at hp
  · unfold computeFacetLevelsCore
    split
    · exact aggregateOf_levelGroups hg b₀ entries _
    · exact foldl_entries_union entries

theorem levels_cover_level0_witness :
    (computeFacetLevelsCore 2 1 (0 : ℕ)
        [((0 : ℕ), ({0} : Finset ℕ)), (1, {1}), (2, {2})]).2 =
      unionList ([((0 : ℕ), ({0} : Finset ℕ)), (1, {1}), (2, {2})].map Prod.snd) :=
  (levels_cover_level0 2 1 0 [(0, {0}), (1, {1}), (2, {2})] (by decide)).2.2

/-- C3: every level-`L` entry is a run of exactly `level_group_size ^ L`
level-0 entries, except possibly the last one, which is the remainder run of
`level_0_size mod level_group_size ^ L` entries (or a full run when the
remainder is zero); the remainder run is still emitted, so the number of
entries at level `L` is the ceiling of `level_0_size / level_group_size ^ L`. -/
theorem level_group_sizes {β : Type} {g : ℕ} (hg : 1 ≤ g) (b₀ : β)
    (entries : List (β × Finset ℕ)) {L : ℕ} (hL : 1 ≤ L) :
    levelItems g b₀ entries L =
      (chunkList (g ^ L) entries).map (fun c =>
        ((c.headD (b₀, ∅)).1, (c.getLastD (b₀, ∅)).1, unionList (c.map Prod.snd))) ∧
    (∀ c ∈ (chunkList (g ^ L) entries).dropLast, c.length = g ^ L) ∧
    (∀ c, (chunkList (g ^ L) entries).getLast? = some c →
      c.length = if entries.length % g ^ L = 0 then g ^ L
        else entries.length % g ^ L) ∧
    (levelItems g b₀ entries L).length = (entries.length + g ^ L - 1) / g ^ L := by
  have hm : 1 ≤ g ^ L := Nat.one_le_pow L g (by omega)
  have hcorr := levelItems_eq_itemsSpec hg b₀ entries L hL
  refine ⟨hcorr, chunkList_dropLast_length hm entries,
    fun c hc => chunkList_getLast_length hm entries c hc, ?_⟩
  rw [hcorr]
  unfold itemsSpec
  rw [List.length_map, chunkList_length hm]

theorem level_group_sizes_witness :
    (levelItems 2 (0 : ℕ) [((0 : ℕ), ({0} : Finset ℕ)), (1, {1}), (2, {2})] 1).length =
      ([((0 : ℕ), ({0} : Finset ℕ)), (1, {1}), (2, {2})].length + 2 ^ 1 - 1) / 2 ^ 1 :=
  (level_group_sizes (by decide) 0 [(0, {0}), (1, {1}), (2, {2})] (by decide)).2.2.2

/-- C4: when `level_0_size < min_level_size * level_group_size` the planner
finds no level, both compute functions return zero output streams, and the
aggregate bitmap is the direct union of the level-0 bitmaps. -/
theorem below_threshold_no_levels (g minSize field_id : ℕ) (f64min : Int)
    (nentries : List (Int × Finset ℕ)) (sentries : List (String × Finset ℕ))
    (hg : 1 ≤ g) (hn : nentries.length < minSize * g)
    (hs : sentries.length < minSize * g) :
    compute_facet_number_levels g minSize field_id f64min nentries =
      ([], unionList (nentries.map Prod.snd)) ∧
    compute_facet_strings_levels g minSize field_id sentries =
      ([], unionList (sentries.map Prod.snd)) := by
  have hqn : ¬ minSize ≤ nentries.length / g ^ 1 := by
    rw [pow_one]
    intro hc
    have hlt : nentries.length / g < minSize := by
      rw [Nat.div_lt_iff_lt_mul (by omega : 0 < g)]
      exact hn
    omega
  have hqs : ¬ minSize ≤ (stringBoundedEntries sentries).length / g ^ 1 := by
    rw [pow_one, stringBoundedEntries_length]
    intro hc
    have hlt : sentries.length / g < minSize := by
      rw [Nat.div_lt_iff_lt_mul (by omega : 0 < g)]
      exact hs
    omega
  constructor
  · unfold compute_facet_number_levels
    rw [core_first_level_fails g minSize f64min nentries hqn]
    rfl
  · unfold compute_facet_strings_levels
    rw [core_first_level_fails g minSize (0, ("" : String))
      (stringBoundedEntries sentries) hqs, stringBoundedEntries_map_snd]
    rfl

theorem below_threshold_no_levels_witness :
    compute_facet_number_levels 4 5 0 0 [((7 : Int), ({3} : Finset ℕ))] =
      ([], unionList ([((7 : Int), ({3} : Finset ℕ))].map Prod.snd)) ∧
    compute_facet_strings_levels 4 5 0 [(("a" : String), ({3} : Finset ℕ))] =
      ([], unionList ([(("a" : String), ({3} : Finset ℕ))].map Prod.snd)) :=
  below_threshold_no_levels 4 5 0 0 [(7, {3})] [("a", {3})]
    (by decide) (by decide) (by decide)

/-- C9: a field with zero level-0 entries yields zero output streams and an
empty aggregate bitmap, with no error, for both the numeric and the textual
compute function. -/
theorem empty_field_no_levels (g minSize field_id : ℕ) (f64min : Int)
    (hm : 1 ≤ minSize) :
    compute_facet_number_levels g minSize field_id f64min [] = ([], ∅) ∧
    compute_facet_strings_levels g minSize field_id [] = ([], ∅) := by
  have hq : ¬ minSize ≤ (0 : ℕ) / g ^ 1 := by
    rw [Nat.zero_div]
    omega
  constructor
  · unfold compute_facet_number_levels
    rw [core_first_level_fails g minSize f64min [] hq]
    rfl
  · unfold compute_facet_strings_levels
    rw [show stringBoundedEntries [] = [] from rfl,
      core_first_level_fails g minSize (0, ("" : String)) [] hq]
    rfl

theorem empty_field_no_levels_witness :
    compute_facet_number_levels 4 5 0 0 [] = ([], ∅) ∧
    compute_facet_strings_levels 4 5 0 [] = ([], ∅) :=
  empty_field_no_levels 4 5 0 0 (by decide)

theorem core_levels_ge_one {β : Type} (g minSize : ℕ) (b₀ : β)
    (entries : List (β × Finset ℕ)) :
    ∀ p ∈ (computeFacetLevelsCore g minSize b₀ entries).1, 1 ≤ p.1 := by
  intro p hp
  unfold computeFacetLevelsCore at hp
  split at hp
  · obtain ⟨L, hLmem, rfl⟩ := List.mem_map.mp hp
    exact (List.mem_range'_1.mp hLmem).1
  · simp at hp

/-- C6: a textual entry written at level 1 persists the literal left and
right boundary strings next to the bitmap; at any level other than 1 the
persisted value holds only the bitmap.  Consequently, in the output of
`compute_facet_strings_levels` an entry's value carries the literal strings
exactly when its key's level is 1. -/
theorem string_entry_bounds_only_level_one (field_id : ℕ) (left right : ℕ × String)
    (docids : Finset ℕ) :
    write_string_entry field_id 1 left right docids =
      ((field_id, 1, left.1, right.1), (some (left.2, right.2), docids)) ∧
    (∀ L, 2 ≤ L → write_string_entry field_id L left right docids =
      ((field_id, L, left.1, right.1), (none, docids))) ∧
    (∀ g minSize : ℕ, ∀ entries : List (String × Finset ℕ),
      ∀ w ∈ (compute_facet_strings_levels g minSize field_id entries).1, ∀ e ∈ w,
        (e.2.1.isSome ↔ e.1.2.1 = 1)) := by
  refine ⟨rfl, ?_, ?_⟩
  · intro L hL
    obtain ⟨K, rfl⟩ : ∃ K, L = K + 2 := ⟨L - 2, by omega⟩
    rfl
  · intro g minSize entries w hw e he
    unfold compute_facet_strings_levels at hw
    simp only at hw
    obtain ⟨p, hp, rfl⟩ := List.mem_map.mp hw
    obtain ⟨it, hit, rfl⟩ := List.mem_map.mp he
    have h1 := core_levels_ge_one g minSize (0, ("" : String))
      (stringBoundedEntries entries) p hp
    rcases hLv : p.1 with _ | K
    · rw [hLv] at h1
      omega
    · rcases K with _ | K
      · simp [write_string_entry]
      · simp [write_string_entry]

theorem string_entry_bounds_only_level_one_witness :
    write_string_entry 0 2 (0, ("a" : String)) (1, ("b" : String)) ∅ =
      ((0, 2, 0, 1), (none, ∅)) :=
  (string_entry_bounds_only_level_one 0 (0, ("a" : String)) (1, ("b" : String)) ∅).2.1
    2 (by decide)

/-- C10: the `level_group_size` setter clamps its argument to at least 2
(`max value 2`), while the `min_level_size` setter stores its argument
unchanged. -/
theorem level_group_size_clamped (f : Facets) (value : ℕ) :
    (f.set_level_group_size value).level_group_size = max value 2 ∧
    (f.set_min_level_size value).min_level_size = value :=
  ⟨rfl, rfl⟩

/-- The 100 textual level-0 entries of the degenerate scenario: 100 facet
strings, the i-th carried by document i alone. -/
def entries100 : List (String × Finset ℕ) :=
  (List.range 100).map (fun i => ("", {i}))

/-- One field's textual rebuild as `Facets::execute` wires it: the requested
tunables pass through the setters of the `Facets` builder before
`compute_facet_strings_levels` runs. -/
def facets_string_rebuild (requested_group requested_min field_id : ℕ)
    (entries : List (String × Finset ℕ)) :
    List (List ((ℕ × ℕ × ℕ × ℕ) × Option (String × String) × Finset ℕ)) × Finset ℕ :=
  let f := (Facets.new.set_level_group_size requested_group).set_min_level_size
    requested_min
  compute_facet_strings_levels f.level_group_size f.min_level_size field_id entries

set_option maxRecDepth 40000 in
/-- C8 counterexample: with 100 textual level-0 entries and requested
`level_group_size = 1`, `min_level_size = 1`, the built levels do NOT each
contain 100 entries — the setter clamps the grouping factor to 2, so level 1
already has only 50 entries. -/
theorem facets_collapse_cex :
    ¬ ∀ w ∈ (facets_string_rebuild 1 1 0 entries100).1, w.length = 100 := by
  decide

set_option maxRecDepth 40000 in
/-- C8 (amended): with 100 textual level-0 entries, requested
`level_group_size = 1` (clamped to 2 by the setter) and `min_level_size = 1`,
the rebuild terminates and produces `top_level = 6` levels with
50, 25, 13, 7, 4 and 2 entries respectively, each level's bitmaps unioning to
the full set of the 100 documents. -/
theorem facets_clamped_rebuild :
    (facets_string_rebuild 1 1 0 entries100).1.map List.length =
      [50, 25, 13, 7, 4, 2] ∧
    top_level 100 (Facets.new.set_level_group_size 1).level_group_size 1 = 6 ∧
    ∀ w ∈ (facets_string_rebuild 1 1 0 entries100).1,
      unionList (w.map (fun e => e.2.2)) = Finset.range 100 := by
  refine ⟨by decide, by decide, by decide⟩

/-! ### Range clearers (`clear_field_number_levels` / `clear_field_string_levels`) -/

/-- Lexicographic comparison of the logical facet-level keys
`(field_id, level, left_bound, right_bound)`.  The heed codecs
(`FacetLevelValueF64Codec`, `FacetLevelValueU32Codec`) are opaque
order-preserving encodings (big-endian field id and level, order-preserving
bound encoding), so the store's byte order is this lexicographic order on the
decoded tuples. -/
def keyLe {β : Type} [LinearOrder β] (a b : ℕ × ℕ × β × β) : Bool :=
  decide (a.1 < b.1) || (decide (a.1 = b.1) && (decide (a.2.1 < b.2.1) ||
    (decide (a.2.1 = b.2.1) && (decide (a.2.2.1 < b.2.2.1) ||
      (decide (a.2.2.1 = b.2.2.1) && decide (a.2.2.2 ≤ b.2.2.2))))))

/-- `db.delete_range(wtxn, &(left..=right))`: removes every stored entry
whose key lies in the inclusive range, leaving the rest untouched. -/
def delete_range {β V : Type} [LinearOrder β] (lo hi : ℕ × ℕ × β × β)
    (store : List ((ℕ × ℕ × β × β) × V)) : List ((ℕ × ℕ × β × β) × V) :=
  store.filter (fun kv => !(keyLe lo kv.1 && keyLe kv.1 hi))

/-- `u32::MAX`, the upper bound sentinel of `clear_field_string_levels`. -/
def u32Max : ℕ := 2 ^ 32 - 1

/-- Order proxy for `f64::MIN`: the numeric bound domain is modelled by an
order-isomorphic copy of the finite doubles inside `Int`; only the ordering
and the extremality of the `f64::MIN`/`f64::MAX` sentinels matter here. -/
def f64Min : Int := -(2 ^ 1024)

/-- Order proxy for `f64::MAX` (see `f64Min`). -/
def f64Max : Int := 2 ^ 1024

/-- `clear_field_string_levels`: one bounded range deletion from
`(field_id, 1, u32::MIN, u32::MIN)` to `(field_id, u8::MAX, u32::MAX,
u32::MAX)`. -/
def clear_field_string_levels {V : Type} (field_id : ℕ)
    (store : List ((ℕ × ℕ × ℕ × ℕ) × V)) : List ((ℕ × ℕ × ℕ × ℕ) × V) :=
  delete_range (field_id, 1, 0, 0) (field_id, 255, u32Max, u32Max) store

/-- `clear_field_number_levels`: one bounded range deletion from
`(field_id, 1, f64::MIN, f64::MIN)` to `(field_id, u8::MAX, f64::MAX,
f64::MAX)`. -/
def clear_field_number_levels {V : Type} (field_id : ℕ)
    (store : List ((ℕ × ℕ × Int × Int) × V)) : List ((ℕ × ℕ × Int × Int) × V) :=
  delete_range (field_id, 1, f64Min, f64Min) (field_id, 255, f64Max, f64Max) store

/-- A key lies in the clearers' range iff its field id matches and its level
is at least 1, provided the level fits in a `u8` and the bounds lie between
the sentinels — which holds for every encodable persisted key. -/
theorem keyLe_range_iff {β : Type} [LinearOrder β] {bmin bmax : β} (fid : ℕ)
    (k : ℕ × ℕ × β × β) (hl : k.2.1 ≤ 255)
    (hx1 : bmin ≤ k.2.2.1) (hx2 : k.2.2.1 ≤ bmax)
    (hy1 : bmin ≤ k.2.2.2) (hy2 : k.2.2.2 ≤ bmax) :
    (keyLe (fid, 1, bmin, bmin) k && keyLe k (fid, 255, bmax, bmax)) =
      (decide (k.1 = fid) && decide (1 ≤ k.2.1)) := by
  obtain ⟨f, l, x, y⟩ := k
  simp only at hl hx1 hx2 hy1 hy2
  apply Bool.eq_iff_iff.mpr
  simp only [keyLe, Bool.and_eq_true, Bool.or_eq_true, decide_eq_true_eq]
  constructor
  · rintro ⟨h₁, h₂⟩
    rcases h₁ with h | ⟨hf, hlv⟩
    · rcases h₂ with h' | ⟨hf', _⟩
      · exact absurd h' (lt_asymm h)
      · rw [hf'] at h
        exact absurd h (lt_irrefl fid)
    · exact ⟨hf.symm, by rcases hlv with h | ⟨h, _⟩ <;> omega⟩
  · rintro ⟨hf, h1⟩
    refine ⟨Or.inr ⟨hf.symm, ?_⟩, Or.inr ⟨hf, ?_⟩⟩
    · rcases Nat.lt_or_ge 1 l with h | h
      · exact Or.inl h
      · have hl1 : l = 1 := by omega
        refine Or.inr ⟨hl1.symm, ?_⟩
        rcases lt_or_eq_of_le hx1 with h' | h'
        · exact Or.inl h'
        · exact Or.inr ⟨h', hy1⟩
    · rcases Nat.lt_or_ge l 255 with h | h
      · exact Or.inl h
      · have hl255 : l = 255 := by omega
        refine Or.inr ⟨hl255, ?_⟩
        rcases lt_or_eq_of_le hx2 with h' | h'
        · exact Or.inl h'
        · exact Or.inr ⟨h', hy2⟩

theorem delete_range_idem {β V : Type} [LinearOrder β] (lo hi : ℕ × ℕ × β × β)
    (store : List ((ℕ × ℕ × β × β) × V)) :
    delete_range lo hi (delete_range lo hi store) = delete_range lo hi store := by
  unfold delete_range
  exact List.filter_eq_self.mpr (fun x hx => (List.mem_filter.mp hx).2)

/-- C5: for every field id, the range clearers delete exactly the persisted
entries of that field with level ≥ 1 (level-0 entries and entries of other
fields survive), and clearing an already-cleared store is a no-op — clearing
twice never changes anything and never fails. -/
theorem clear_field_levels_spec {V : Type} (field_id : ℕ)
    (sstore : List ((ℕ × ℕ × ℕ × ℕ) × V))
    (nstore : List ((ℕ × ℕ × Int × Int) × V))
    (hs : ∀ kv ∈ sstore, kv.1.2.1 ≤ 255 ∧ kv.1.2.2.1 ≤ u32Max ∧ kv.1.2.2.2 ≤ u32Max)
    (hn : ∀ kv ∈ nstore, kv.1.2.1 ≤ 255 ∧
      f64Min ≤ kv.1.2.2.1 ∧ kv.1.2.2.1 ≤ f64Max ∧
      f64Min ≤ kv.1.2.2.2 ∧ kv.1.2.2.2 ≤ f64Max) :
    clear_field_string_levels field_id sstore = sstore.filter
      (fun kv => !(decide (kv.1.1 = field_id) && decide (1 ≤ kv.1.2.1))) ∧
    clear_field_number_levels field_id nstore = nstore.filter
      (fun kv => !(decide (kv.1.1 = field_id) && decide (1 ≤ kv.1.2.1))) ∧
    clear_field_string_levels field_id (clear_field_string_levels field_id sstore) =
      clear_field_string_levels field_id sstore ∧
    clear_field_number_levels field_id (clear_field_number_levels field_id nstore) =
      clear_field_number_levels field_id nstore := by
  refine ⟨?_, ?_, delete_range_idem _ _ _, delete_range_idem _ _ _⟩
  · unfold clear_field_string_levels delete_range
    apply List.filter_congr
    intro kv hkv
    obtain ⟨h1, h2, h3⟩ := hs kv hkv
    exact congrArg Bool.not
      (keyLe_range_iff field_id kv.1 h1 (Nat.zero_le _) h2 (Nat.zero_le _) h3)
  · unfold clear_field_number_levels delete_range
    apply List.filter_congr
    intro kv hkv
    obtain ⟨h1, h2, h3, h4, h5⟩ := hn kv hkv
    exact congrArg Bool.not (keyLe_range_iff field_id kv.1 h1 h2 h3 h4 h5)

theorem clear_field_levels_spec_witness :
    clear_field_string_levels 0
        ([((0, 0, 0, 7), 10), ((0, 1, 0, 1), 11), ((1, 2, 0, 0), 12)] :
          List ((ℕ × ℕ × ℕ × ℕ) × ℕ)) =
      ([((0, 0, 0, 7), 10), ((0, 1, 0, 1), 11), ((1, 2, 0, 0), 12)] :
          List ((ℕ × ℕ × ℕ × ℕ) × ℕ)).filter
        (fun kv => !(decide (kv.1.1 = 0) && decide (1 ≤ kv.1.2.1))) :=
  (clear_field_levels_spec 0
    [((0, 0, 0, 7), 10), ((0, 1, 0, 1), 11), ((1, 2, 0, 0), 12)]
    ([] : List ((ℕ × ℕ × Int × Int) × ℕ))
    (by decide) (by decide)).1

/-! ### Bulk merge (`write_into_lmdb_database` with the failing merge fn) -/

/-- The internal error raised by the merge handlers installed in
`Facets::execute` (`InternalError::IndexingMergingKeys`). -/
inductive UpdateError : Type
  | indexingMergingKeys (process : String)
deriving DecidableEq

/-- The merge closures of `Facets::execute`: `|_, _| Err(InternalError::
IndexingMergingKeys { process })` — they fail unconditionally. -/
def facet_levels_merge {κ V : Type} (process : String) :
    κ → V → V → Except UpdateError V :=
  fun _ _ _ => .error (.indexingMergingKeys process)

/-- Modelled from the spec: `write_into_lmdb_database` (defined in
`update/index_documents`, not under `src/`) bulk-inserts a staged key/value
stream into the store; when a key is already present, the merge-conflict
handler computes the stored value, and a handler error aborts the whole
operation. -/
def write_into_lmdb_database {κ V : Type} [DecidableEq κ]
    (merge : κ → V → V → Except UpdateError V) :
    List (κ × V) → List (κ × V) → Except UpdateError (List (κ × V))
  | store, [] => .ok store
  | store, (k, v) :: rest =>
    match store.find? (fun kv => decide (kv.1 = k)) with
    | some kv₀ =>
        match merge k kv₀.2 v with
        | .ok merged =>
            write_into_lmdb_database merge
              (store.map (fun kv => if kv.1 = k then (k, merged) else kv)) rest
        | .error e => .error e
    | none => write_into_lmdb_database merge (store ++ [(k, v)]) rest

/-- C7: during the bulk merge of the produced level streams, observing a
duplicate key always aborts with the internal merging-keys error (the
installed merge handler fails unconditionally), and a successful merge means
no duplicate was ever observed — duplicates are never silently merged. -/
theorem merge_duplicate_key_aborts {κ V : Type} [DecidableEq κ] (process : String)
    (store entries : List (κ × V)) (hstore : (store.map Prod.fst).Nodup) :
    (¬ (store.map Prod.fst ++ entries.map Prod.fst).Nodup →
      write_into_lmdb_database (facet_levels_merge process) store entries =
        .error (.indexingMergingKeys process)) ∧
    ((store.map Prod.fst ++ entries.map Prod.fst).Nodup →
      write_into_lmdb_database (facet_levels_merge process) store entries =
        .ok (store ++ entries)) := by
  induction entries generalizing store with
  | nil =>
      refine ⟨?_, ?_⟩
      · intro h
        exfalso
        apply h
        simpa using hstore
      · intro _
        show Except.ok store = Except.ok (store ++ [])
        rw [List.append_nil]
  | cons e rest ih =>
      obtain ⟨k, v⟩ := e
      by_cases hk : k ∈ store.map Prod.fst
      · obtain ⟨kv₀, hfind⟩ : ∃ kv₀,
            store.find? (fun kv => decide (kv.1 = k)) = some kv₀ := by
          have hex : ∃ x ∈ store, (fun kv : κ × V => decide (kv.1 = k)) x = true := by
            obtain ⟨kv, hkv, hfst⟩ := List.mem_map.mp hk
            exact ⟨kv, hkv, by simp [hfst]⟩
          exact Option.isSome_iff_exists.mp (List.find?_isSome.mpr hex)
        have hrun : write_into_lmdb_database (facet_levels_merge process) store
            ((k, v) :: rest) = .error (.indexingMergingKeys process) := by
          simp only [write_into_lmdb_database]
          rw [hfind]
          rfl
        refine ⟨fun _ => hrun, fun hnodup => ?_⟩
        exfalso
        have hdisj := (List.nodup_append.mp hnodup).2.2
        exact hdisj hk (by simp)
      · have hfind : store.find? (fun kv => decide (kv.1 = k)) = none := by
          apply List.find?_eq_none.mpr
          intro x hx
          simp only [decide_eq_true_eq]
          intro he
          exact hk (List.mem_map.mpr ⟨x, hx, he⟩)
        have hstep : write_into_lmdb_database (facet_levels_merge process) store
            ((k, v) :: rest) =
            write_into_lmdb_database (facet_levels_merge process)
              (store ++ [(k, v)]) rest := by
          simp only [write_into_lmdb_database]
          rw [hfind]
        have hstore' : ((store ++ [(k, v)]).map Prod.fst).Nodup := by
          rw [List.map_append]
          rw [List.nodup_append]
          refine ⟨hstore, by simp, ?_⟩
          intro a ha hb
          simp at hb
          rw [hb] at ha
          exact hk ha
        have ihs := ih (store ++ [(k, v)]) hstore'
        have hkeys : (store ++ [(k, v)]).map Prod.fst ++ rest.map Prod.fst =
            store.map Prod.fst ++ ((k, v) :: rest).map Prod.fst := by
          rw [List.map_append, List.append_assoc]
          rfl
        refine ⟨?_, ?_⟩
        · intro h
          rw [hstep]
          exact ihs.1 (by rwa [hkeys])
        · intro h
          rw [hstep, ihs.2 (by rwa [hkeys])]
          rw [List.append_assoc]
          rfl

theorem merge_duplicate_key_aborts_witness :
    write_into_lmdb_database (facet_levels_merge ("facet string levels"))
        [((1 : ℕ), (10 : ℕ))] [(1, 20)] =
      .error (.indexingMergingKeys ("facet string levels")) :=
  (merge_duplicate_key_aborts ("facet string levels") [(1, 10)] [(1, 20)]
    (by decide)).1 (by decide)

end FacetLevels
